import Mathlib

/-!
Verification of the orchestration core of gemini-gui (`lib/app.js`).

The development shallowly embeds the functions of `lib/app.js`: pure string
and arithmetic helpers become Lean functions, and the filesystem- or
subprocess-touching operations (`_recreateTmpDirs`, `updateReferenceImage`)
become explicit state passing or effect-trace producing functions.  External
collaborators (Node `path`, JS `encodeURI`, `Math.round`, the `compare-size`
result shape, the filesystem) are modelled by Lean functions faithful to
their documented semantics on the inputs the app uses.
-/

namespace GeminiGui

/-! ### Decimal rendering of numbers

JS renders an integer timestamp (`new Date().valueOf()`) as its decimal
digit string when concatenated into a URL.  `natToString` models that
rendering for natural numbers. -/

/-- Decimal digit character for a single digit value. -/
def digitChar (d : Nat) : Char :=
  if d = 0 then '0'
  else if d = 1 then '1'
  else if d = 2 then '2'
  else if d = 3 then '3'
  else if d = 4 then '4'
  else if d = 5 then '5'
  else if d = 6 then '6'
  else if d = 7 then '7'
  else if d = 8 then '8'
  else '9'

/-- Numeric value of a digit character. -/
def digitVal (c : Char) : Nat :=
  c.toNat - 48

/-- Digit list of `n` in base 10, most significant first; `fuel` bounds the
recursion depth (any `fuel ≥ n` is exact). -/
def natDigits : Nat → Nat → List Char
  | 0, _ => []
  | fuel + 1, n =>
    if n = 0 then []
    else natDigits fuel (n / 10) ++ [digitChar (n % 10)]

/-- Decimal rendering of a natural number, as JS string conversion does. -/
def natToString (n : Nat) : String :=
  if n = 0 then "0" else String.mk (natDigits n n)

/-- Numeric value of a digit string, most significant first. -/
def listToNat (l : List Char) : Nat :=
  l.foldl (fun acc c => acc * 10 + digitVal c) 0

theorem digitVal_digitChar {d : Nat} (h : d < 10) : digitVal (digitChar d) = d := by
  interval_cases d <;> rfl

theorem digitChar_isDigit (d : Nat) : (digitChar d).isDigit = true := by
  unfold digitChar
  repeat' split
  all_goals rfl

theorem listToNat_append_digit (l : List Char) (c : Char) :
    listToNat (l ++ [c]) = listToNat l * 10 + digitVal c := by
  simp [listToNat, List.foldl_append]

theorem listToNat_natDigits : ∀ fuel n : Nat, n ≤ fuel → listToNat (natDigits fuel n) = n := by
  intro fuel
  induction fuel with
  | zero =>
    intro n h
    interval_cases n
    rfl
  | succ f ih =>
    intro n h
    by_cases h0 : n = 0
    · subst h0; rfl
    · have hlt : n / 10 ≤ f := by omega
      have hmod : n % 10 < 10 := by omega
      rw [natDigits, if_neg h0, listToNat_append_digit, ih _ hlt, digitVal_digitChar hmod]
      omega

theorem natDigits_ne_nil {fuel n : Nat} (hn : n ≠ 0) (hf : fuel ≠ 0) :
    natDigits fuel n ≠ [] := by
  match fuel, hf with
  | f + 1, _ =>
    rw [natDigits, if_neg hn]
    simp

theorem natDigits_all_digits :
    ∀ fuel n : Nat, ∀ c ∈ natDigits fuel n, c.isDigit = true := by
  intro fuel
  induction fuel with
  | zero => intro n c hc; simp [natDigits] at hc
  | succ f ih =>
    intro n c hc
    rw [natDigits] at hc
    by_cases h0 : n = 0
    · simp [h0] at hc
    · rw [if_neg h0] at hc
      rcases List.mem_append.mp hc with h | h
      · exact ih _ _ h
      · rcases List.mem_singleton.mp h with rfl
        exact digitChar_isDigit _

theorem natToString_ne_empty (n : Nat) : (natToString n).data ≠ [] := by
  unfold natToString
  by_cases h0 : n = 0
  · simp [h0]
  · rw [if_neg h0]
    exact natDigits_ne_nil h0 h0

theorem natToString_all_digits (n : Nat) : ∀ c ∈ (natToString n).data, c.isDigit = true := by
  unfold natToString
  by_cases h0 : n = 0
  · simp [h0]
  · rw [if_neg h0]
    exact natDigits_all_digits n n

theorem natToString_injective {a b : Nat} (h : natToString a = natToString b) : a = b := by
  unfold natToString at h
  by_cases ha : a = 0 <;> by_cases hb : b = 0
  · omega
  · rw [if_pos ha, if_neg hb] at h
    have hdata : ['0'] = natDigits b b := congrArg String.data h
    have := listToNat_natDigits b b le_rfl
    rw [← hdata] at this
    simp [listToNat, digitVal] at this
    omega
  · rw [if_neg ha, if_pos hb] at h
    have hdata : natDigits a a = ['0'] := congrArg String.data h
    have := listToNat_natDigits a a le_rfl
    rw [hdata] at this
    simp [listToNat, digitVal] at this
    omega
  · rw [if_neg ha, if_neg hb] at h
    have hdata : natDigits a a = natDigits b b := congrArg String.data h
    have h1 := listToNat_natDigits a a le_rfl
    have h2 := listToNat_natDigits b b le_rfl
    rw [hdata, h2] at h1
    omega

/-! ### Path utilities

Models of the Node `path` functions the app uses (`path.relative`,
`path.dirname`), restricted to normalized paths without `.` or `..`
segments, which is the domain the app feeds them (absolute temp-directory
and screenshot paths). -/

/-- Segments of a character list split at every slash. -/
def splitOnSlash : List Char → List (List Char)
  | [] => [[]]
  | c :: rest =>
    if c = '/' then [] :: splitOnSlash rest
    else
      match splitOnSlash rest with
      | [] => [[c]]
      | s :: ss => (c :: s) :: ss

/-- Join segments with slashes, the inverse of `splitOnSlash`. -/
def joinSlash : List (List Char) → List Char
  | [] => []
  | [s] => s
  | s :: ss => s ++ '/' :: joinSlash ss

theorem splitOnSlash_ne_nil (l : List Char) : splitOnSlash l ≠ [] := by
  cases l with
  | nil => simp [splitOnSlash]
  | cons c rest =>
    rw [splitOnSlash]
    split
    · simp
    · split <;> simp

theorem joinSlash_cons {s : List Char} {ss : List (List Char)} (h : ss ≠ []) :
    joinSlash (s :: ss) = s ++ '/' :: joinSlash ss := by
  cases ss with
  | nil => exact absurd rfl h
  | cons t ts => rfl

theorem joinSlash_splitOnSlash (l : List Char) : joinSlash (splitOnSlash l) = l := by
  induction l with
  | nil => rfl
  | cons c rest ih =>
    rw [splitOnSlash]
    by_cases hc : c = '/'
    · rw [if_pos hc, joinSlash_cons (splitOnSlash_ne_nil rest), ih, hc]
      rfl
    · rw [if_neg hc]
      obtain ⟨s, ss, hss⟩ : ∃ s ss, splitOnSlash rest = s :: ss := by
        cases h : splitOnSlash rest with
        | nil => exact absurd h (splitOnSlash_ne_nil rest)
        | cons s ss => exact ⟨s, ss, rfl⟩
      rw [hss] at ih ⊢
      cases ss with
      | nil =>
        simp only [joinSlash] at ih ⊢
        rw [ih]
      | cons t ts =>
        rw [joinSlash_cons (by simp)] at ih
        rw [joinSlash_cons (by simp), List.cons_append, ih]

theorem splitOnSlash_append (x y : List Char) :
    splitOnSlash (x ++ '/' :: y) = splitOnSlash x ++ splitOnSlash y := by
  induction x with
  | nil => rfl
  | cons c x ih =>
    by_cases hc : c = '/'
    · rw [List.cons_append, splitOnSlash, if_pos hc, ih, splitOnSlash, if_pos hc]
      rfl
    · rw [List.cons_append, splitOnSlash, if_neg hc, ih, splitOnSlash, if_neg hc]
      obtain ⟨s, ss, hss⟩ : ∃ s ss, splitOnSlash x = s :: ss := by
        cases h : splitOnSlash x with
        | nil => exact absurd h (splitOnSlash_ne_nil x)
        | cons s ss => exact ⟨s, ss, rfl⟩
      rw [hss, List.cons_append]
      rfl

/-- Drop the longest common segment-wise prefix of two segment lists,
returning the two remainders. -/
def dropCommon : List (List Char) → List (List Char) → List (List Char) × List (List Char)
  | a :: as, b :: bs => if a = b then dropCommon as bs else (a :: as, b :: bs)
  | as, bs => (as, bs)

theorem dropCommon_self_append (f r : List (List Char)) :
    dropCommon f (f ++ r) = ([], r) := by
  induction f with
  | nil =>
    cases r <;> rfl
  | cons a as ih =>
    rw [List.cons_append, dropCommon, if_pos rfl, ih]

/-- Model of Node `path.relative` on normalized paths: split both paths into
segments, drop empty segments (duplicate and leading slashes), remove the
common prefix, then climb with `..` for what is left of the source path and
descend into what is left of the target path. -/
def pathRelative (fromP toP : String) : String :=
  let f := (splitOnSlash fromP.data).filter (fun s => !s.isEmpty)
  let t := (splitOnSlash toP.data).filter (fun s => !s.isEmpty)
  let p := dropCommon f t
  String.mk (joinSlash (p.1.map (fun _ => ['.', '.']) ++ p.2))

/-- Model of Node `path.dirname` on normalized paths: all but the last
segment. -/
def dirname (p : String) : String :=
  match splitOnSlash p.data with
  | [] => "."
  | [_] => "."
  | segs =>
    let d := joinSlash segs.dropLast
    if d = [] then "/" else String.mk d

theorem data_append_slash (a b : String) :
    (a ++ "/" ++ b).data = a.data ++ '/' :: b.data := by
  rw [String.data_append, String.data_append]
  simp

/-- With `toP = fromP ++ "/" ++ rel` and `rel` free of empty segments,
`pathRelative` recovers exactly `rel`. -/
theorem pathRelative_append (fromP rel : String)
    (h : ∀ s ∈ splitOnSlash rel.data, s ≠ []) :
    pathRelative fromP (fromP ++ "/" ++ rel) = rel := by
  unfold pathRelative
  rw [data_append_slash, splitOnSlash_append, List.filter_append]
  have hrel : (splitOnSlash rel.data).filter (fun s => !s.isEmpty) = splitOnSlash rel.data := by
    apply List.filter_eq_self.mpr
    intro s hs
    simpa using h s hs
  rw [hrel]
  dsimp only
  rw [dropCommon_self_append]
  simp only [List.map_nil, List.nil_append]
  rw [joinSlash_splitOnSlash]

/-! ### Percent encoding

Model of the JS `encodeURI` function used by `_pathToURL`: characters in
the unescaped set (alphanumerics, mark characters and the reserved set,
including `#` and `?`) pass through verbatim; every other character is
replaced by the percent-escapes of its UTF-8 bytes.  `percentDecode` is
generic percent-decoding: unescape every `%XX` and decode the resulting
byte string as UTF-8. -/

/-- UTF-8 bytes of a code point. -/
def utf8Bytes (n : Nat) : List Nat :=
  if n < 128 then [n]
  else if n < 2048 then [192 + n / 64, 128 + n % 64]
  else if n < 65536 then [224 + n / 4096, 128 + (n / 64) % 64, 128 + n % 64]
  else [240 + n / 262144, 128 + (n / 4096) % 64, 128 + (n / 64) % 64, 128 + n % 64]

/-- Decode one UTF-8 sequence given its first byte and the remaining bytes;
returns the code point and the bytes left over. -/
def utf8Step (b : Nat) (rest : List Nat) : Option (Nat × List Nat) :=
  if b < 128 then some (b, rest)
  else if b < 192 then none
  else if b < 224 then
    match rest with
    | b1 :: rest1 =>
      if 128 ≤ b1 ∧ b1 < 192 then some ((b - 192) * 64 + (b1 - 128), rest1) else none
    | [] => none
  else if b < 240 then
    match rest with
    | b1 :: b2 :: rest2 =>
      if (128 ≤ b1 ∧ b1 < 192) ∧ (128 ≤ b2 ∧ b2 < 192) then
        some ((b - 224) * 4096 + (b1 - 128) * 64 + (b2 - 128), rest2)
      else none
    | _ => none
  else if b < 248 then
    match rest with
    | b1 :: b2 :: b3 :: rest3 =>
      if (128 ≤ b1 ∧ b1 < 192) ∧ (128 ≤ b2 ∧ b2 < 192) ∧ (128 ≤ b3 ∧ b3 < 192) then
        some ((b - 240) * 262144 + (b1 - 128) * 4096 + (b2 - 128) * 64 + (b3 - 128), rest3)
      else none
    | _ => none
  else none

/-- Decode a UTF-8 byte string into characters, with a recursion-depth fuel;
any fuel at least the length of the list is exact. -/
def utf8DecodeAux : Nat → List Nat → Option (List Char)
  | _, [] => some []
  | 0, _ :: _ => none
  | fuel + 1, b :: rest =>
    match utf8Step b rest with
    | none => none
    | some (n, rest2) => (utf8DecodeAux fuel rest2).map (fun cs => Char.ofNat n :: cs)

/-- Decode a UTF-8 byte string into characters; `none` on malformed input. -/
def utf8DecodeBytes (l : List Nat) : Option (List Char) :=
  utf8DecodeAux l.length l

theorem utf8Step_length {b : Nat} {rest rest2 : List Nat} {n : Nat}
    (h : utf8Step b rest = some (n, rest2)) : rest2.length ≤ rest.length := by
  unfold utf8Step at h
  repeat' split at h
  all_goals simp_all
  all_goals omega

theorem utf8DecodeAux_mono :
    ∀ (f1 f2 : Nat) (l : List Nat), l.length ≤ f1 → l.length ≤ f2 →
      utf8DecodeAux f1 l = utf8DecodeAux f2 l := by
  intro f1
  induction f1 with
  | zero =>
    intro f2 l h1 h2
    have : l = [] := by
      cases l with
      | nil => rfl
      | cons b rest => simp at h1
    subst this
    cases f2 <;> rfl
  | succ g1 ih =>
    intro f2 l h1 h2
    cases l with
    | nil => cases f2 <;> rfl
    | cons b rest =>
      cases f2 with
      | zero => simp at h2
      | succ g2 =>
        rw [utf8DecodeAux, utf8DecodeAux]
        cases hstep : utf8Step b rest with
        | none => rfl
        | some p =>
          obtain ⟨n, rest2⟩ := p
          have hlen := utf8Step_length hstep
          have hr : rest.length ≤ g1 := by simpa using h1
          have hr2 : rest.length ≤ g2 := by simpa using h2
          dsimp only
          rw [ih g2 rest2 (by omega) (by omega)]
theorem utf8Bytes_lt_256 {n : Nat} (hn : n < 1114112) : ∀ b ∈ utf8Bytes n, b < 256 := by
  intro b hb
  unfold utf8Bytes at hb
  split at hb
  · simp at hb; omega
  · split at hb
    · simp at hb
      rcases hb with rfl | rfl <;> omega
    · split at hb
      · simp at hb
        rcases hb with rfl | rfl | rfl <;> omega
      · simp at hb
        rcases hb with rfl | rfl | rfl | rfl <;> omega

theorem char_toNat_lt (c : Char) : c.toNat < 1114112 := by
  rcases c.valid with h | ⟨_, h2⟩
  · exact Nat.lt_trans h (by norm_num)
  · exact h2

theorem utf8DecodeBytes_utf8Bytes (c : Char) (rest : List Nat) :
    utf8DecodeBytes (utf8Bytes c.toNat ++ rest) =
      (utf8DecodeBytes rest).map (fun cs => c :: cs) := by
  have hv : c.toNat < 1114112 := char_toNat_lt c
  have hofNat : Char.ofNat c.toNat = c := Char.ofNat_toNat c
  by_cases h1 : c.toNat < 128
  · have hbytes : utf8Bytes c.toNat = [c.toNat] := by rw [utf8Bytes, if_pos h1]
    rw [hbytes, List.singleton_append]
    unfold utf8DecodeBytes
    simp only [List.length_cons]
    rw [utf8DecodeAux]
    have hstep : utf8Step c.toNat rest = some (c.toNat, rest) := by
      unfold utf8Step
      rw [if_pos h1]
    rw [hstep]
    dsimp only
    rw [hofNat]
  · by_cases h2 : c.toNat < 2048
    · have hb0 : ¬ (192 + c.toNat / 64 < 128) := by omega
      have hb1 : ¬ (192 + c.toNat / 64 < 192) := by omega
      have hb2 : 192 + c.toNat / 64 < 224 := by omega
      have hc1 : 128 ≤ 128 + c.toNat % 64 ∧ 128 + c.toNat % 64 < 192 := by omega
      have harg : (192 + c.toNat / 64 - 192) * 64 + (128 + c.toNat % 64 - 128) = c.toNat := by
        omega
      have hbytes : utf8Bytes c.toNat = [192 + c.toNat / 64, 128 + c.toNat % 64] := by
        rw [utf8Bytes, if_neg h1, if_pos h2]
      rw [hbytes, List.cons_append, List.cons_append, List.nil_append]
      unfold utf8DecodeBytes
      simp only [List.length_cons]
      rw [utf8DecodeAux]
      have hstep : utf8Step (192 + c.toNat / 64) ((128 + c.toNat % 64) :: rest) =
          some (c.toNat, rest) := by
        unfold utf8Step
        rw [if_neg hb0, if_neg hb1, if_pos hb2]
        dsimp only
        rw [if_pos hc1, harg]
      rw [hstep]
      dsimp only
      rw [hofNat, utf8DecodeAux_mono (rest.length + 1) rest.length rest (by omega) le_rfl]
    · by_cases h3 : c.toNat < 65536
      · have hb0 : ¬ (224 + c.toNat / 4096 < 128) := by omega
        have hb1 : ¬ (224 + c.toNat / 4096 < 192) := by omega
        have hb2 : ¬ (224 + c.toNat / 4096 < 224) := by omega
        have hb3 : 224 + c.toNat / 4096 < 240 := by omega
        have hc1 : (128 ≤ 128 + c.toNat / 64 % 64 ∧ 128 + c.toNat / 64 % 64 < 192) ∧
            128 ≤ 128 + c.toNat % 64 ∧ 128 + c.toNat % 64 < 192 := by omega
        have harg : (224 + c.toNat / 4096 - 224) * 4096 + (128 + c.toNat / 64 % 64 - 128) * 64 +
            (128 + c.toNat % 64 - 128) = c.toNat := by omega
        have hbytes : utf8Bytes c.toNat =
            [224 + c.toNat / 4096, 128 + c.toNat / 64 % 64, 128 + c.toNat % 64] := by
          rw [utf8Bytes, if_neg h1, if_neg h2, if_pos h3]
        rw [hbytes, List.cons_append, List.cons_append, List.cons_append, List.nil_append]
        unfold utf8DecodeBytes
        simp only [List.length_cons]
        rw [utf8DecodeAux]
        have hstep : utf8Step (224 + c.toNat / 4096)
            ((128 + c.toNat / 64 % 64) :: (128 + c.toNat % 64) :: rest) =
            some (c.toNat, rest) := by
          unfold utf8Step
          rw [if_neg hb0, if_neg hb1, if_neg hb2, if_pos hb3]
          dsimp only
          rw [if_pos hc1, harg]
        rw [hstep]
        dsimp only
        rw [hofNat, utf8DecodeAux_mono (rest.length + 1 + 1) rest.length rest (by omega) le_rfl]
      · have hb0 : ¬ (240 + c.toNat / 262144 < 128) := by omega
        have hb1 : ¬ (240 + c.toNat / 262144 < 192) := by omega
        have hb2 : ¬ (240 + c.toNat / 262144 < 224) := by omega
        have hb3 : ¬ (240 + c.toNat / 262144 < 240) := by omega
        have hb4 : 240 + c.toNat / 262144 < 248 := by omega
        have hc1 : (128 ≤ 128 + c.toNat / 4096 % 64 ∧ 128 + c.toNat / 4096 % 64 < 192) ∧
            (128 ≤ 128 + c.toNat / 64 % 64 ∧ 128 + c.toNat / 64 % 64 < 192) ∧
            128 ≤ 128 + c.toNat % 64 ∧ 128 + c.toNat % 64 < 192 := by omega
        have harg : (240 + c.toNat / 262144 - 240) * 262144 +
            (128 + c.toNat / 4096 % 64 - 128) * 4096 + (128 + c.toNat / 64 % 64 - 128) * 64 +
            (128 + c.toNat % 64 - 128) = c.toNat := by omega
        have hbytes : utf8Bytes c.toNat = [240 + c.toNat / 262144, 128 + c.toNat / 4096 % 64,
            128 + c.toNat / 64 % 64, 128 + c.toNat % 64] := by
          rw [utf8Bytes, if_neg h1, if_neg h2, if_neg h3]
        rw [hbytes, List.cons_append, List.cons_append, List.cons_append, List.cons_append,
          List.nil_append]
        unfold utf8DecodeBytes
        simp only [List.length_cons]
        rw [utf8DecodeAux]
        have hstep : utf8Step (240 + c.toNat / 262144) ((128 + c.toNat / 4096 % 64) ::
            (128 + c.toNat / 64 % 64) :: (128 + c.toNat % 64) :: rest) =
            some (c.toNat, rest) := by
          unfold utf8Step
          rw [if_neg hb0, if_neg hb1, if_neg hb2, if_neg hb3, if_pos hb4]
          dsimp only
          rw [if_pos hc1, harg]
        rw [hstep]
        dsimp only
        rw [hofNat,
          utf8DecodeAux_mono (rest.length + 1 + 1 + 1) rest.length rest (by omega) le_rfl]

theorem utf8DecodeBytes_flatMap (l : List Char) :
    utf8DecodeBytes (l.flatMap fun c => utf8Bytes c.toNat) = some l := by
  induction l with
  | nil => rfl
  | cons c l ih =>
    rw [List.flatMap_cons, utf8DecodeBytes_utf8Bytes, ih]
    rfl

/-- Uppercase hexadecimal digit character for a value below 16. -/
def hexDigit : Nat → Char
  | 0 => '0'
  | 1 => '1'
  | 2 => '2'
  | 3 => '3'
  | 4 => '4'
  | 5 => '5'
  | 6 => '6'
  | 7 => '7'
  | 8 => '8'
  | 9 => '9'
  | 10 => 'A'
  | 11 => 'B'
  | 12 => 'C'
  | 13 => 'D'
  | 14 => 'E'
  | _ => 'F'

/-- Value of a hexadecimal digit character, upper or lower case. -/
def hexVal (c : Char) : Option Nat :=
  if 48 ≤ c.toNat ∧ c.toNat ≤ 57 then some (c.toNat - 48)
  else if 65 ≤ c.toNat ∧ c.toNat ≤ 70 then some (c.toNat - 55)
  else if 97 ≤ c.toNat ∧ c.toNat ≤ 102 then some (c.toNat - 87)
  else none

theorem hexVal_hexDigit {d : Nat} (h : d < 16) : hexVal (hexDigit d) = some d := by
  interval_cases d <;> rfl

/-- Percent escape of one byte. -/
def percentByte (b : Nat) : List Char :=
  ['%', hexDigit (b / 16), hexDigit (b % 16)]

/-- Characters `encodeURI` passes through verbatim: alphanumerics, the mark
characters `- _ . ! ~ * ' ( )` and the reserved characters
`; / ? : @ & = + $ ,` together with `#` (code 39 is the apostrophe). -/
def uriUnescaped (c : Char) : Bool :=
  decide (65 ≤ c.toNat ∧ c.toNat ≤ 90) || decide (97 ≤ c.toNat ∧ c.toNat ≤ 122) ||
  decide (48 ≤ c.toNat ∧ c.toNat ≤ 57) ||
  ['-', '_', '.', '!', '~', '*', '(', ')',
    ';', '/', '?', ':', '@', '&', '=', '+', '$', ',', '#'].contains c ||
  c.toNat == 39

/-- Encoding of one character under JS `encodeURI`. -/
def encodeURIChar (c : Char) : List Char :=
  if uriUnescaped c then [c] else (utf8Bytes c.toNat).flatMap percentByte

/-- Model of JS `encodeURI`. -/
def encodeURI (s : String) : String :=
  String.mk (s.data.flatMap encodeURIChar)

/-- Unescape one step: a `%XX` escape consumes three characters and yields
the escaped byte, any other character yields its UTF-8 bytes. -/
def percentStep (c : Char) (rest : List Char) : Option (List Nat × List Char) :=
  if c = '%' then
    match rest with
    | d1 :: d2 :: rest2 =>
      match hexVal d1, hexVal d2 with
      | some v1, some v2 => some ([16 * v1 + v2], rest2)
      | _, _ => none
    | _ => none
  else some (utf8Bytes c.toNat, rest)

/-- Percent-unescaping with recursion-depth fuel; any fuel at least the
length of the list is exact. -/
def percentUnescapeAux : Nat → List Char → Option (List Nat)
  | _, [] => some []
  | 0, _ :: _ => none
  | fuel + 1, c :: rest =>
    match percentStep c rest with
    | none => none
    | some (bs, rest2) => (percentUnescapeAux fuel rest2).map (fun l => bs ++ l)

/-- Replace every `%XX` escape with the byte it denotes and every plain
character with its UTF-8 bytes; `none` on a malformed escape. -/
def percentUnescape (l : List Char) : Option (List Nat) :=
  percentUnescapeAux l.length l

theorem percentStep_length {c : Char} {rest rest2 : List Char} {bs : List Nat}
    (h : percentStep c rest = some (bs, rest2)) : rest2.length ≤ rest.length := by
  unfold percentStep at h
  repeat' split at h
  all_goals simp_all
  all_goals omega

theorem percentUnescapeAux_mono :
    ∀ (f1 f2 : Nat) (l : List Char), l.length ≤ f1 → l.length ≤ f2 →
      percentUnescapeAux f1 l = percentUnescapeAux f2 l := by
  intro f1
  induction f1 with
  | zero =>
    intro f2 l h1 h2
    have : l = [] := by
      cases l with
      | nil => rfl
      | cons b rest => simp at h1
    subst this
    cases f2 <;> rfl
  | succ g1 ih =>
    intro f2 l h1 h2
    cases l with
    | nil => cases f2 <;> rfl
    | cons c rest =>
      cases f2 with
      | zero => simp at h2
      | succ g2 =>
        rw [percentUnescapeAux, percentUnescapeAux]
        cases hstep : percentStep c rest with
        | none => rfl
        | some p =>
          obtain ⟨bs, rest2⟩ := p
          have hlen := percentStep_length hstep
          have hr : rest.length ≤ g1 := by simpa using h1
          have hr2 : rest.length ≤ g2 := by simpa using h2
          dsimp only
          rw [ih g2 rest2 (by omega) (by omega)]

/-- Generic percent-decoding of a string: unescape every `%XX`, then decode
the byte string as UTF-8. -/
def percentDecode (s : String) : Option String :=
  ((percentUnescape s.data).bind utf8DecodeBytes).map String.mk

theorem percentUnescape_percentByte {b : Nat} (hb : b < 256) (rest : List Char) :
    percentUnescape (percentByte b ++ rest) =
      (percentUnescape rest).map (fun bs => b :: bs) := by
  have h1 : b / 16 < 16 := by omega
  have h2 : b % 16 < 16 := by omega
  have harg : 16 * (b / 16) + b % 16 = b := by omega
  have hstep : percentStep '%' (hexDigit (b / 16) :: hexDigit (b % 16) :: rest) =
      some ([b], rest) := by
    unfold percentStep
    rw [if_pos rfl]
    dsimp only
    rw [hexVal_hexDigit h1, hexVal_hexDigit h2]
    dsimp only
    rw [harg]
  rw [percentByte, List.cons_append, List.cons_append, List.cons_append, List.nil_append]
  unfold percentUnescape
  simp only [List.length_cons]
  rw [percentUnescapeAux, hstep]
  dsimp only
  rw [percentUnescapeAux_mono (rest.length + 1 + 1) rest.length rest (by omega) le_rfl]
  cases percentUnescapeAux rest.length rest <;> rfl

theorem percentUnescape_flatMap_percentByte {bs : List Nat} (h : ∀ b ∈ bs, b < 256)
    (rest : List Char) :
    percentUnescape (bs.flatMap percentByte ++ rest) =
      (percentUnescape rest).map (fun l => bs ++ l) := by
  induction bs with
  | nil =>
    simp only [List.flatMap_nil, List.nil_append]
    cases hp : percentUnescape rest <;> rfl
  | cons b bs ih =>
    rw [List.flatMap_cons, List.append_assoc,
      percentUnescape_percentByte (h b (List.mem_cons_self b bs)),
      ih (fun x hx => h x (List.mem_cons_of_mem b hx)), Option.map_map]
    rfl

theorem uriUnescaped_ne_percent {c : Char} (h : uriUnescaped c = true) : ¬ c = '%' := by
  intro hc
  subst hc
  exact absurd h (by decide)

theorem percentUnescape_encodeURIChar (c : Char) (rest : List Char) :
    percentUnescape (encodeURIChar c ++ rest) =
      (percentUnescape rest).map (fun bs => utf8Bytes c.toNat ++ bs) := by
  unfold encodeURIChar
  by_cases h : uriUnescaped c
  · have hstep : percentStep c rest = some (utf8Bytes c.toNat, rest) := by
      unfold percentStep
      rw [if_neg (uriUnescaped_ne_percent h)]
    rw [if_pos h, List.singleton_append]
    unfold percentUnescape
    simp only [List.length_cons]
    rw [percentUnescapeAux, hstep]
  · rw [if_neg h,
      percentUnescape_flatMap_percentByte (utf8Bytes_lt_256 (char_toNat_lt c)) rest]

theorem percentUnescape_encode (l : List Char) :
    percentUnescape (l.flatMap encodeURIChar) =
      some (l.flatMap fun c => utf8Bytes c.toNat) := by
  induction l with
  | nil => rfl
  | cons c l ih =>
    rw [List.flatMap_cons, percentUnescape_encodeURIChar, ih, List.flatMap_cons]
    rfl

/-- Percent-decoding is a left inverse of `encodeURI`. -/
theorem percentDecode_encodeURI (s : String) : percentDecode (encodeURI s) = some s := by
  unfold percentDecode encodeURI
  show ((percentUnescape (s.data.flatMap encodeURIChar)).bind utf8DecodeBytes).map String.mk =
    some s
  rw [percentUnescape_encode, Option.some_bind, utf8DecodeBytes_flatMap]
  rfl

/-! ### Browser selection (`filterBrowsers`, `checkUnknownBrowsers`, `_readTests`)

`filterBrowsers` is `_.intersection(browsersFromConfig, browsersFromCli)`:
the unique values of the first list that also occur in the second, in first
occurrence order.  `checkUnknownBrowsers` warns once when the CLI list names
ids outside the configured list; the returned option is the warning payload
(the unknown ids and the valid configured set), `none` when no warning is
printed. -/

/-- Deduplication keeping first occurrences, with an accumulator of values
already seen. -/
def uniqLoop : List String → List String → List String
  | [], _ => []
  | a :: as, seen => if a ∈ seen then uniqLoop as seen else a :: uniqLoop as (a :: seen)

/-- Model of lodash `_.intersection` on two lists. -/
def lodashIntersection (first second : List String) : List String :=
  uniqLoop (first.filter (fun x => second.contains x)) []

/-- Model of lodash `_.difference`: values of the first list not present in
the second. -/
def lodashDifference (first second : List String) : List String :=
  first.filter (fun x => !second.contains x)

def filterBrowsers (browsersFromConfig browsersFromCli : List String) : List String :=
  lodashIntersection browsersFromConfig browsersFromCli

def checkUnknownBrowsers (browsersFromConfig browsersFromCli : List String) :
    Option (List String × List String) :=
  let unknownBrowsers := lodashDifference browsersFromCli browsersFromConfig
  if unknownBrowsers.isEmpty then none else some (unknownBrowsers, browsersFromConfig)

/-- A loaded top-level suite: only its name and mutable browser list matter
to the embedded code. -/
structure Suite where
  name : String
  browsers : List String
deriving DecidableEq

/-- Browser-filtering step of `_readTests`: when no browser option was given
on the command line the suites are left untouched; otherwise every suite's
browser list is intersected with the CLI selection. -/
def readTestsBrowserStep (browserOption : Option (List String)) (suites : List Suite) :
    List Suite :=
  match browserOption with
  | none => suites
  | some cli => suites.map (fun s => { s with browsers := filterBrowsers s.browsers cli })

theorem mem_uniqLoop :
    ∀ (l seen : List String) (x : String), x ∈ uniqLoop l seen ↔ x ∈ l ∧ x ∉ seen := by
  intro l
  induction l with
  | nil => intro seen x; simp [uniqLoop]
  | cons a as ih =>
    intro seen x
    rw [uniqLoop]
    by_cases ha : a ∈ seen
    · rw [if_pos ha, ih]
      constructor
      · rintro ⟨h1, h2⟩
        exact ⟨List.mem_cons_of_mem a h1, h2⟩
      · rintro ⟨h1, h2⟩
        rcases List.mem_cons.mp h1 with rfl | h1
        · exact absurd ha h2
        · exact ⟨h1, h2⟩
    · rw [if_neg ha]
      constructor
      · intro h
        rcases List.mem_cons.mp h with rfl | h
        · exact ⟨List.mem_cons_self x as, ha⟩
        · rcases (ih (a :: seen) x).mp h with ⟨h1, h2⟩
          refine ⟨List.mem_cons_of_mem a h1, fun hx => h2 (List.mem_cons_of_mem a hx)⟩
      · rintro ⟨h1, h2⟩
        rcases List.mem_cons.mp h1 with rfl | h1
        · exact List.mem_cons_self x _
        · by_cases hxa : x = a
          · subst hxa
            exact List.mem_cons_self x _
          · refine List.mem_cons_of_mem a ((ih (a :: seen) x).mpr ⟨h1, fun hx => ?_⟩)
            rcases List.mem_cons.mp hx with h | h
            · exact hxa h
            · exact h2 h

theorem mem_filterBrowsers (cfg cli : List String) (x : String) :
    x ∈ filterBrowsers cfg cli ↔ x ∈ cfg ∧ x ∈ cli := by
  unfold filterBrowsers lodashIntersection
  rw [mem_uniqLoop]
  simp [List.mem_filter, List.elem_iff]

/-! ### Compression arithmetic (`_calcCompression`)

The app computes `Math.round(res.difference * 100 / res[currPathImg])` from
the `compare-size` result for `(referencePath, currentPath)`; per that
collaborator contract (as also fixed by the repository test fixture) the
`difference` field is the current-capture size minus the reference size, and
`res[currPathImg]` is the current-capture size. -/

/-- JS `Math.round` of the rational `num / den`, for a positive denominator:
`Math.round x = ⌊x + 1/2⌋`, computed on integers. -/
def jsMathRound (num : Int) (den : Nat) : Int :=
  (2 * num + den) / (2 * (den : Int))

/-- Specification-side rounding: the floor of `num / den + 1/2` computed in
the rationals. -/
def roundHalfUp (num : Int) (den : Nat) : Int :=
  ⌊(num : ℚ) / (den : ℚ) + 1 / 2⌋

theorem jsMathRound_eq_roundHalfUp (num : Int) (den : Nat) (h : 0 < den) :
    jsMathRound num den = roundHalfUp num den := by
  unfold jsMathRound roundHalfUp
  have hd : (den : ℚ) ≠ 0 := Nat.cast_ne_zero.mpr (by omega)
  have harg : (num : ℚ) / (den : ℚ) + 1 / 2 =
      ((2 * num + den : ℤ) : ℚ) / ((2 * den : ℕ) : ℚ) := by
    push_cast
    field_simp
    ring
  rw [harg, Rat.floor_intCast_div_natCast]
  push_cast
  rfl

/-- Compression percentage reported by `updateReferenceImage`, from the
sizes of the recompressed reference file and of the current capture. -/
def _calcCompression (size : String → Nat) (refPathImg currPathImg : String) : Int :=
  jsMathRound (((size currPathImg : Int) - (size refPathImg : Int)) * 100) (size currPathImg)

/-! ### URL construction (`_pathToURL`, `refPathToURL`, `currentPathToURL`,
`diffPathToURL`)

The namespace prefixes are the static getters of the source: `/ref` (plus
the browser id), `/curr` and `/diff`.  The wall-clock timestamp is passed
explicitly as a natural number of milliseconds. -/

def _pathToURL (rootDir fullPath ns : String) : String :=
  ns ++ "/" ++ encodeURI (pathRelative rootDir fullPath)

def _appendTimestampToURL (url : String) (t : Nat) : String :=
  url ++ "?t=" ++ natToString t

def refPathToURL (referenceDirs : String → String) (fullPath browserId : String)
    (t : Nat) : String :=
  _appendTimestampToURL
    (_pathToURL (referenceDirs browserId) fullPath ("/ref" ++ "/" ++ browserId)) t

def currentPathToURL (currentDir fullPath : String) (t : Nat) : String :=
  _appendTimestampToURL (_pathToURL currentDir fullPath "/curr") t

def diffPathToURL (diffDir fullPath : String) : String :=
  _pathToURL diffDir fullPath "/diff"

/-! ### Failed-test index and the accept protocol -/

/-- A test descriptor / result as the accept protocol sees it: the identity
triple plus the two image paths. -/
structure TestData where
  suitePath : String
  stateName : String
  browserId : String
  referencePath : String
  currentPath : String
deriving DecidableEq

/-- Modelled from the spec: the composite lookup key of the failed-test
index (`lib/common/tests-index.js` is not part of the sources), a value
tuple of suite path, state name and browser id. -/
def testKey (t : TestData) : String × String × String :=
  (t.suitePath, t.stateName, t.browserId)

/-- Modelled from the spec: `Index.add` of `lib/common/tests-index.js`
inserts or overwrites the entry keyed by the test's triple. -/
def indexAdd (idx : List TestData) (test : TestData) : List TestData :=
  test :: idx.filter (fun u => testKey u ≠ testKey test)

/-- Modelled from the spec: `Index.find` of `lib/common/tests-index.js`
looks up by the same composite key, comparing by value. -/
def indexFind (idx : List TestData) (testData : TestData) : Option TestData :=
  idx.find? (fun t => testKey t == testKey testData)

/-- The `addFailedTest` method: store the failing test in the index. -/
def addFailedTest (idx : List TestData) (test : TestData) : List TestData :=
  indexAdd idx test

/-- Filesystem and subprocess effects performed by the accept workflow, in
execution order. -/
inductive FsEffect where
  | makeTree (dir : String)
  | remove (p : String)
  | recompress (outPath inPath : String)
deriving DecidableEq

/-- The `_deleteRefImg` step: remove the reference image only when it
currently exists as a file. -/
def _deleteRefImg (isFile : String → Bool) (refPathImg : String) : List FsEffect :=
  if isFile refPathImg then [FsEffect.remove refPathImg] else []

/-- The `updateReferenceImage` method as an effect-trace producer: the pair
of the filesystem/subprocess effects performed and either the not-found
error or the computed compression rate plus reference URL.  `isFile` gives
which paths currently hold files, `size` the file sizes used by
`_calcCompression`, and `t` the wall-clock timestamp used by
`refPathToURL`. -/
def updateReferenceImage (failedTests : List TestData) (testData : TestData)
    (isFile : String → Bool) (size : String → Nat) (referenceDirs : String → String)
    (t : Nat) : List FsEffect × Except String (Int × String) :=
  match indexFind failedTests testData with
  | none => ([], Except.error "No such test failed")
  | some test =>
    (FsEffect.makeTree (dirname test.referencePath) ::
        (_deleteRefImg isFile test.referencePath ++
          [FsEffect.recompress test.referencePath test.currentPath]),
      Except.ok (_calcCompression size test.referencePath test.currentPath,
        refPathToURL referenceDirs test.referencePath test.browserId t))

/-! ### Temp workspace (`removeTreeIfExists`, `_recreateTmpDirs`)

The filesystem is modelled as an association list from directory path to
the list of entries the directory contains.  `fs.removeTree` fails on a
missing path, hence the existence guard; `fs.makeDirectory` fails on an
existing path. -/

/-- Directory store: path to contained entries. -/
structure Fs where
  dirs : List (String × List String)
deriving DecidableEq

def Fs.lookup (fs : Fs) (p : String) : Option (List String) :=
  (fs.dirs.find? (fun e => e.1 == p)).map (fun e => e.2)

def fsExists (fs : Fs) (p : String) : Bool :=
  (fs.lookup p).isSome

def fsRemoveTree (fs : Fs) (p : String) : Except String Fs :=
  if fsExists fs p then Except.ok ⟨fs.dirs.filter (fun e => e.1 != p)⟩
  else Except.error "ENOENT"

def fsMakeDirectory (fs : Fs) (p : String) : Except String Fs :=
  if fsExists fs p then Except.error "EEXIST" else Except.ok ⟨(p, []) :: fs.dirs⟩

/-- The module-level `removeTreeIfExists` helper: probe existence first and
remove the tree only if present. -/
def removeTreeIfExists (fs : Fs) (p : String) : Except String Fs :=
  if fsExists fs p then fsRemoveTree fs p else Except.ok fs

/-- The `_recreateTmpDirs` method: drop both temp directories if present,
then create both afresh (the two `q.all` groups are modelled sequentially;
the two paths are distinct). -/
def _recreateTmpDirs (fs : Fs) (currentDir diffDir : String) : Except String Fs := do
  let fs1 ← removeTreeIfExists fs currentDir
  let fs2 ← removeTreeIfExists fs1 diffDir
  let fs3 ← fsMakeDirectory fs2 currentDir
  let fs4 ← fsMakeDirectory fs3 diffDir
  return fs4

theorem find?_filter_ne_self (dirs : List (String × List String)) (p : String) :
    (dirs.filter (fun e => e.1 != p)).find? (fun e => e.1 == p) = none := by
  induction dirs with
  | nil => rfl
  | cons e es ih =>
    by_cases he : e.1 = p
    · rw [List.filter_cons, if_neg (by simp [he])]
      exact ih
    · rw [List.filter_cons, if_pos (by simp [he]),
        List.find?_cons_of_neg _ (by simp [he])]
      exact ih

theorem find?_filter_ne_other (dirs : List (String × List String)) (p q : String)
    (hpq : q ≠ p) :
    (dirs.filter (fun e => e.1 != p)).find? (fun e => e.1 == q) =
      dirs.find? (fun e => e.1 == q) := by
  induction dirs with
  | nil => rfl
  | cons e es ih =>
    by_cases he : e.1 = p
    · have heq : ¬ e.1 = q := by
        rw [he]
        exact fun hh => hpq hh.symm
      rw [List.filter_cons, if_neg (by simp [he]), ih,
        List.find?_cons_of_neg _ (by simp [heq])]
    · rw [List.filter_cons, if_pos (by simp [he])]
      by_cases heq : e.1 = q
      · rw [List.find?_cons_of_pos _ (by simp [heq]), List.find?_cons_of_pos _ (by simp [heq])]
      · rw [List.find?_cons_of_neg _ (by simp [heq]), List.find?_cons_of_neg _ (by simp [heq]),
          ih]

theorem removeTreeIfExists_spec (fs : Fs) (p : String) :
    ∃ fs1, removeTreeIfExists fs p = Except.ok fs1 ∧ fs1.lookup p = none ∧
      ∀ q, q ≠ p → fs1.lookup q = fs.lookup q := by
  unfold removeTreeIfExists
  by_cases h : fsExists fs p
  · rw [if_pos h]
    unfold fsRemoveTree
    rw [if_pos h]
    refine ⟨_, rfl, ?_, ?_⟩
    · unfold Fs.lookup
      rw [find?_filter_ne_self]
      rfl
    · intro q hq
      unfold Fs.lookup
      rw [find?_filter_ne_other fs.dirs p q hq]
  · rw [if_neg h]
    refine ⟨fs, rfl, ?_, fun q _ => rfl⟩
    unfold fsExists at h
    cases hl : fs.lookup p with
    | none => rfl
    | some v => exact absurd (by rw [hl]; rfl) h

theorem fsMakeDirectory_spec (fs : Fs) (p : String) (h : fs.lookup p = none) :
    ∃ fs1, fsMakeDirectory fs p = Except.ok fs1 ∧ fs1.lookup p = some [] ∧
      ∀ q, q ≠ p → fs1.lookup q = fs.lookup q := by
  unfold fsMakeDirectory fsExists
  rw [h]
  refine ⟨_, rfl, ?_, ?_⟩
  · unfold Fs.lookup
    rw [List.find?_cons_of_pos _ (by simp)]
    rfl
  · intro q hq
    unfold Fs.lookup
    have hpq : ¬ p = q := fun hh => hq hh.symm
    rw [List.find?_cons_of_neg _ (by simp [hpq])]

/-! ### Supporting lemmas for the claims -/

theorem appendTimestampToURL_injective (url : String) {t t2 : Nat}
    (h : _appendTimestampToURL url t = _appendTimestampToURL url t2) : t = t2 := by
  unfold _appendTimestampToURL at h
  have hdata := congrArg String.data h
  rw [String.data_append, String.data_append, String.data_append, String.data_append,
    List.append_assoc, List.append_assoc] at hdata
  have h2 := List.append_cancel_left (List.append_cancel_left hdata)
  exact natToString_injective (congrArg String.mk h2)

theorem hexDigit_ne_qmark (d : Nat) : hexDigit d ≠ '?' := by
  rcases d with _|_|_|_|_|_|_|_|_|_|_|_|_|_|_|d <;>
    first
      | decide
      | exact (by decide : ('F' : Char) ≠ '?')

theorem qmark_not_mem_encodeURI {rel : String}
    (hq : ∀ c ∈ rel.data, c ≠ '?') : '?' ∉ (encodeURI rel).data := by
  intro hmem
  unfold encodeURI at hmem
  rcases List.mem_flatMap.mp hmem with ⟨a, ha, hin⟩
  unfold encodeURIChar at hin
  by_cases hu : uriUnescaped a
  · rw [if_pos hu] at hin
    exact hq a ha (List.mem_singleton.mp hin).symm
  · rw [if_neg hu] at hin
    rcases List.mem_flatMap.mp hin with ⟨b, _, hb⟩
    unfold percentByte at hb
    rcases List.mem_cons.mp hb with h | hb2
    · exact absurd h (by decide)
    rcases List.mem_cons.mp hb2 with h | hb3
    · exact hexDigit_ne_qmark _ h.symm
    rcases List.mem_cons.mp hb3 with h | hb4
    · exact hexDigit_ne_qmark _ h.symm
    · simp at hb4

/-! ### The claims -/

/-- C1: for every test descriptor not present in the failed-test index,
`updateReferenceImage` rejects with the not-found error
`No such test failed` and performs no filesystem writes: its effect trace
is empty, so no directory creation, no deletion and no recompression
subprocess call happen. -/
theorem updateReferenceImage_absent_rejects_without_effects
    (failedTests : List TestData) (testData : TestData) (isFile : String → Bool)
    (size : String → Nat) (referenceDirs : String → String) (t : Nat)
    (h : indexFind failedTests testData = none) :
    updateReferenceImage failedTests testData isFile size referenceDirs t =
      ([], Except.error "No such test failed") := by
  unfold updateReferenceImage
  rw [h]

/-- Witness for C1: the not-found rejection on an empty index. -/
theorem updateReferenceImage_absent_rejects_without_effects_witness :
    indexFind [] ⟨"suite", "state", "bro", "/r/a.png", "/c/a.png"⟩ = none ∧
    updateReferenceImage [] ⟨"suite", "state", "bro", "/r/a.png", "/c/a.png"⟩
      (fun _ => true) (fun _ => 100) (fun _ => "/refs") 7 =
      ([], Except.error "No such test failed") :=
  ⟨by decide,
    updateReferenceImage_absent_rejects_without_effects _ _ _ _ _ _ (by decide)⟩

/-- C2: for every descriptor present in the failed-test index whose
reference path pre-exists as a file, `updateReferenceImage` deletes the
existing reference image strictly before invoking the recompression
subprocess with that path as destination: the effect sequence is exactly
`makeTree` of the parent directory, then `remove` of the reference path,
then `recompress` into the reference path. -/
theorem updateReferenceImage_delete_before_recompress
    (failedTests : List TestData) (testData test : TestData) (isFile : String → Bool)
    (size : String → Nat) (referenceDirs : String → String) (t : Nat)
    (hfind : indexFind failedTests testData = some test)
    (hfile : isFile test.referencePath = true) :
    (updateReferenceImage failedTests testData isFile size referenceDirs t).1 =
      [FsEffect.makeTree (dirname test.referencePath),
        FsEffect.remove test.referencePath,
        FsEffect.recompress test.referencePath test.currentPath] := by
  unfold updateReferenceImage
  rw [hfind]
  dsimp only
  unfold _deleteRefImg
  rw [hfile]
  rfl

/-- Witness for C2: a registered failing test whose reference image exists
is deleted before recompression. -/
theorem updateReferenceImage_delete_before_recompress_witness :
    indexFind [⟨"suite", "state", "bro", "/refs/a.png", "/cur/a.png"⟩]
        ⟨"suite", "state", "bro", "/refs/a.png", "/cur/a.png"⟩ =
      some ⟨"suite", "state", "bro", "/refs/a.png", "/cur/a.png"⟩ ∧
    (fun _ => true) ("/refs/a.png" : String) = true ∧
    (updateReferenceImage [⟨"suite", "state", "bro", "/refs/a.png", "/cur/a.png"⟩]
        ⟨"suite", "state", "bro", "/refs/a.png", "/cur/a.png"⟩ (fun _ => true)
        (fun _ => 100) (fun _ => "/refs") 7).1 =
      [FsEffect.makeTree (dirname "/refs/a.png"), FsEffect.remove "/refs/a.png",
        FsEffect.recompress "/refs/a.png" "/cur/a.png"] :=
  ⟨by decide, rfl,
    updateReferenceImage_delete_before_recompress
      [⟨"suite", "state", "bro", "/refs/a.png", "/cur/a.png"⟩]
      ⟨"suite", "state", "bro", "/refs/a.png", "/cur/a.png"⟩
      ⟨"suite", "state", "bro", "/refs/a.png", "/cur/a.png"⟩
      (fun _ => true) (fun _ => 100) (fun _ => "/refs") 7 (by decide) rfl⟩

/-- C3: the compression delta reported by a successful accept equals
`round((originalSize - recompressedSize) * 100 / originalSize)` where
`originalSize` is the size of the current-capture file, `recompressedSize`
the size of the final reference file, and `round` is JS `Math.round`,
the floor of the rational value plus one half; the result is an integer
percentage that can be negative: sizes 30000 before and 15000 after give
50, sizes 750 before and 1000 after give -33. -/
theorem calcCompression_rounds_size_delta (size : String → Nat) (refP currP : String)
    (h : 0 < size currP) :
    _calcCompression size refP currP =
      roundHalfUp (((size currP : Int) - (size refP : Int)) * 100) (size currP) ∧
    _calcCompression (fun p => if p = "current.png" then 30000 else 15000)
      "reference.png" "current.png" = 50 ∧
    _calcCompression (fun p => if p = "current.png" then 750 else 1000)
      "reference.png" "current.png" = -33 ∧
    _calcCompression (fun p => if p = "current.png" then 750 else 1000)
      "reference.png" "current.png" < 0 :=
  ⟨jsMathRound_eq_roundHalfUp _ _ h, by decide, by decide, by decide⟩

/-- Witness for C3: the rounding law applied at current size 750,
reference size 1000. -/
theorem calcCompression_rounds_size_delta_witness :
    0 < (fun p => if p = "current.png" then 750 else 1000) "current.png" ∧
    _calcCompression (fun p => if p = "current.png" then 750 else 1000)
        "reference.png" "current.png" =
      roundHalfUp ((((fun p => if p = "current.png" then 750 else 1000)
          "current.png" : Int) -
        ((fun p => if p = "current.png" then 750 else 1000) "reference.png" : Int)) * 100)
        ((fun p => if p = "current.png" then 750 else 1000) "current.png") :=
  ⟨by decide,
    (calcCompression_rounds_size_delta
      (fun p => if p = "current.png" then 750 else 1000) "reference.png" "current.png"
      (by decide)).1⟩

/-- C8: after adding a failing test, looking it up with an
independently-constructed descriptor that agrees on suite path, state name
and browser id (even if every other field differs) returns the very test
stored: the index key is value equality of the triple, never object
identity. -/
theorem addFailedTest_find_by_value_key (idx : List TestData) (test descriptor : TestData)
    (h : testKey descriptor = testKey test) :
    indexFind (addFailedTest idx test) descriptor = some test := by
  unfold addFailedTest indexAdd indexFind
  rw [List.find?_cons_of_pos _ (by simp [h])]

/-- Witness for C8: the stored test is found through a descriptor equal
only on the key triple. -/
theorem addFailedTest_find_by_value_key_witness :
    testKey ⟨"suite", "state", "bro", "/other/ref.png", "/other/cur.png"⟩ =
      testKey ⟨"suite", "state", "bro", "/refs/a.png", "/cur/a.png"⟩ ∧
    indexFind (addFailedTest [] ⟨"suite", "state", "bro", "/refs/a.png", "/cur/a.png"⟩)
        ⟨"suite", "state", "bro", "/other/ref.png", "/other/cur.png"⟩ =
      some ⟨"suite", "state", "bro", "/refs/a.png", "/cur/a.png"⟩ :=
  ⟨by decide, addFailedTest_find_by_value_key _ _ _ (by decide)⟩

/-- C9: when no browser selection is supplied on invocation, the
browser-filtering step of `_readTests` leaves every suite unchanged; no
intersection filtering is applied at all, whereas intersecting with an
empty selection would empty every browser list. -/
theorem readTests_without_browser_option (suites : List Suite) (browsers : List String) :
    readTestsBrowserStep none suites = suites ∧ filterBrowsers browsers [] = [] := by
  constructor
  · rfl
  · unfold filterBrowsers lodashIntersection
    have hfilter : browsers.filter (fun x => List.contains [] x) = [] := by
      simp
    rw [hfilter]
    rfl

/-- C10: `_pathToURL` percent-encodes with `encodeURI`, which leaves `#`
and `?` unencoded: a path whose relative part contains `#` or `?` produces
a URL carrying those characters verbatim, so the URL's path portion is not
a faithful percent-encoding of the relative path. -/
theorem pathToURL_keeps_hash_question_verbatim :
    _pathToURL "/root" "/root/a#b?c" "/diff" = "/diff/a#b?c" ∧
    '#' ∈ (_pathToURL "/root" "/root/a#b?c" "/diff").data ∧
    '?' ∈ (_pathToURL "/root" "/root/a#b?c" "/diff").data := by
  refine ⟨by decide, by decide, by decide⟩

/-- C4: for all configured and CLI browser id lists, the effective browser
selection applied to a suite is exactly the intersection of the two lists,
unconditionally; and every CLI id outside the configured set appears in
the single warning payload, which also lists the valid configured set, and
never appears in the effective selection.  `checkUnknownBrowsers` is
called once per App construction, and the returned option is `some`
exactly when one warning is printed. -/
theorem filterBrowsers_intersection_and_warning (cfg cli : List String) :
    (∀ y, y ∈ filterBrowsers cfg cli ↔ y ∈ cfg ∧ y ∈ cli) ∧
    ∀ x, x ∈ cli → x ∉ cfg →
      checkUnknownBrowsers cfg cli = some (lodashDifference cli cfg, cfg) ∧
      x ∈ lodashDifference cli cfg ∧
      x ∉ filterBrowsers cfg cli := by
  refine ⟨fun y => mem_filterBrowsers cfg cli y, fun x hcli hcfg => ?_⟩
  have hxdiff : x ∈ lodashDifference cli cfg := by
    unfold lodashDifference
    rw [List.mem_filter]
    refine ⟨hcli, ?_⟩
    simp [List.elem_iff, hcfg]
  refine ⟨?_, hxdiff, ?_⟩
  · unfold checkUnknownBrowsers
    dsimp only
    rw [if_neg]
    intro hempty
    rw [List.isEmpty_iff] at hempty
    rw [hempty] at hxdiff
    exact List.not_mem_nil x hxdiff
  · rw [mem_filterBrowsers]
    rintro ⟨h1, _⟩
    exact hcfg h1

/-- Witness for C4: configured browsers `a`, CLI selection `a, b`; the
intersection conjunct is instantiated directly and the warning conjunct at
the unknown id `b`, which is warned about and excluded. -/
theorem filterBrowsers_intersection_and_warning_witness :
    (∀ y, y ∈ filterBrowsers ["a"] ["a", "b"] ↔ y ∈ ["a"] ∧ y ∈ ["a", "b"]) ∧
    (("b" : String) ∈ ["a", "b"] ∧ ("b" : String) ∉ ["a"]) ∧
    (checkUnknownBrowsers ["a"] ["a", "b"] = some (lodashDifference ["a", "b"] ["a"], ["a"]) ∧
      ("b" : String) ∈ lodashDifference ["a", "b"] ["a"] ∧
      ("b" : String) ∉ filterBrowsers ["a"] ["a", "b"]) :=
  ⟨(filterBrowsers_intersection_and_warning ["a"] ["a", "b"]).1,
    ⟨by decide, by decide⟩,
    (filterBrowsers_intersection_and_warning ["a"] ["a", "b"]).2 "b" (by decide) (by decide)⟩

/-- C5: every URL built by `refPathToURL` and `currentPathToURL` ends in a
cache-busting query `?t=` followed by the decimal digits of the
millisecond timestamp; two calls at different timestamps on the same path
never produce byte-identical strings; and `diffPathToURL` never carries
the parameter (its URL contains no question mark at all whenever the
relative diff path contains none). -/
theorem refCurrURL_cache_busting (referenceDirs : String → String)
    (currentDir diffDir fullPath diffPath browserId : String) (t t2 : Nat)
    (hne : t ≠ t2)
    (hq : ∀ c ∈ (pathRelative diffDir diffPath).data, c ≠ '?') :
    (∃ pre, refPathToURL referenceDirs fullPath browserId t =
        pre ++ "?t=" ++ natToString t) ∧
    (∃ pre, currentPathToURL currentDir fullPath t = pre ++ "?t=" ++ natToString t) ∧
    (natToString t).data ≠ [] ∧ (∀ c ∈ (natToString t).data, c.isDigit = true) ∧
    refPathToURL referenceDirs fullPath browserId t ≠
      refPathToURL referenceDirs fullPath browserId t2 ∧
    currentPathToURL currentDir fullPath t ≠ currentPathToURL currentDir fullPath t2 ∧
    '?' ∉ (diffPathToURL diffDir diffPath).data := by
  refine ⟨⟨_, rfl⟩, ⟨_, rfl⟩, natToString_ne_empty t, natToString_all_digits t, ?_, ?_, ?_⟩
  · intro h
    exact hne (appendTimestampToURL_injective _ h)
  · intro h
    exact hne (appendTimestampToURL_injective _ h)
  · unfold diffPathToURL _pathToURL
    intro hmem
    rw [data_append_slash] at hmem
    rcases List.mem_append.mp hmem with h | h
    · exact absurd h (by decide)
    · rcases List.mem_cons.mp h with h | h
      · exact absurd h (by decide)
      · exact qmark_not_mem_encodeURI hq h

/-- Witness for C5: concrete reference, current and diff URLs at
timestamps 1 and 2. -/
theorem refCurrURL_cache_busting_witness :
    (1 : Nat) ≠ 2 ∧
    (∀ c ∈ (pathRelative "/d" "/d/x.png").data, c ≠ '?') ∧
    ((∃ pre, refPathToURL (fun _ => "/r") "/r/x.png" "bro" 1 =
        pre ++ "?t=" ++ natToString 1) ∧
      (∃ pre, currentPathToURL "/c" "/r/x.png" 1 = pre ++ "?t=" ++ natToString 1) ∧
      (natToString 1).data ≠ [] ∧ (∀ c ∈ (natToString 1).data, c.isDigit = true) ∧
      refPathToURL (fun _ => "/r") "/r/x.png" "bro" 1 ≠
        refPathToURL (fun _ => "/r") "/r/x.png" "bro" 2 ∧
      currentPathToURL "/c" "/r/x.png" 1 ≠ currentPathToURL "/c" "/r/x.png" 2 ∧
      '?' ∉ (diffPathToURL "/d" "/d/x.png").data) :=
  ⟨by decide, by decide,
    refCurrURL_cache_busting (fun _ => "/r") "/c" "/d" "/r/x.png" "/d/x.png" "bro" 1 2
      (by decide) (by decide)⟩

/-- C6: for a full path sitting under the root directory whose relative
part contains spaces or non-ASCII characters and has no empty path
segments, percent-decoding the path portion of the produced URL, after
stripping the namespace prefix and its slash, recovers exactly the
relative path of the full path with respect to the root directory. -/
theorem pathToURL_percent_roundtrip (rootDir rel ns : String)
    (hseg : ∀ s ∈ splitOnSlash rel.data, s ≠ [])
    (hchar : ∃ c ∈ rel.data, c = ' ' ∨ 128 ≤ c.toNat) :
    pathRelative rootDir (rootDir ++ "/" ++ rel) = rel ∧
    percentDecode (String.mk ((_pathToURL rootDir (rootDir ++ "/" ++ rel) ns).data.drop
      (ns.data.length + 1))) = some rel := by
  have hrel := pathRelative_append rootDir rel hseg
  refine ⟨hrel, ?_⟩
  unfold _pathToURL
  rw [hrel, data_append_slash]
  have hsplit : ns.data ++ '/' :: (encodeURI rel).data =
      (ns.data ++ ['/']) ++ (encodeURI rel).data := by
    simp
  have hlen : ns.data.length + 1 = (ns.data ++ ['/']).length := by simp
  rw [hsplit, hlen, List.drop_left]
  exact percentDecode_encodeURI rel

/-- Witness for C6: the relative path `a b` under root `/root` viewed
through the `/curr` namespace. -/
theorem pathToURL_percent_roundtrip_witness :
    (∀ s ∈ splitOnSlash ("a b" : String).data, s ≠ []) ∧
    (∃ c ∈ ("a b" : String).data, c = ' ' ∨ 128 ≤ c.toNat) ∧
    (pathRelative "/root" ("/root" ++ "/" ++ "a b") = "a b" ∧
      percentDecode (String.mk ((_pathToURL "/root" ("/root" ++ "/" ++ "a b")
        "/curr").data.drop (("/curr" : String).data.length + 1))) = some "a b") :=
  ⟨by decide, by decide, pathToURL_percent_roundtrip "/root" "a b" "/curr"
    (by decide) (by decide)⟩

/-- C7: recreating the workspace removes the current and diff directories
when they exist and then creates both afresh: from any starting state it
succeeds and both directories exist and are empty afterwards, whether they
previously held files or did not exist at all. -/
theorem recreateTmpDirs_fresh_empty_dirs (fs : Fs) (currentDir diffDir : String)
    (hne : currentDir ≠ diffDir) :
    ∃ fs4, _recreateTmpDirs fs currentDir diffDir = Except.ok fs4 ∧
      fs4.lookup currentDir = some [] ∧ fs4.lookup diffDir = some [] := by
  obtain ⟨fs1, e1, h1none, h1frame⟩ := removeTreeIfExists_spec fs currentDir
  obtain ⟨fs2, e2, h2none, h2frame⟩ := removeTreeIfExists_spec fs1 diffDir
  have hc2 : fs2.lookup currentDir = none := by rw [h2frame currentDir hne, h1none]
  obtain ⟨fs3, e3, h3some, h3frame⟩ := fsMakeDirectory_spec fs2 currentDir hc2
  have hd3 : fs3.lookup diffDir = none := by
    rw [h3frame diffDir (fun hh => hne hh.symm), h2none]
  obtain ⟨fs4, e4, h4some, h4frame⟩ := fsMakeDirectory_spec fs3 diffDir hd3
  refine ⟨fs4, ?_, ?_, h4some⟩
  · unfold _recreateTmpDirs
    simp only [e1, e2, e3, e4, bind, Except.bind, pure, Except.pure]
  · rw [h4frame currentDir hne, h3some]

/-- Witness for C7: a state where the current directory holds a stale file
and the diff directory does not exist. -/
theorem recreateTmpDirs_fresh_empty_dirs_witness :
    ("cur" : String) ≠ "diff" ∧
    (∃ fs4, _recreateTmpDirs ⟨[("cur", ["stale.png"]), ("keep", [])]⟩ "cur" "diff" =
        Except.ok fs4 ∧
      fs4.lookup "cur" = some [] ∧ fs4.lookup "diff" = some []) :=
  ⟨by decide,
    recreateTmpDirs_fresh_empty_dirs ⟨[("cur", ["stale.png"]), ("keep", [])]⟩ "cur" "diff"
      (by decide)⟩

end GeminiGui
